import Mathlib

/-!
# Verification of the lantz-core middleware and lifecycle orchestrator

Shallow embedding of the relevant parts of `lantz.core` (helpers.py,
flock.py, processors.py, feat.py, action.py) and proofs about them.

Naming convention: definitions keep the Python names where Lean allows it.
Python dicts are modelled as finite key sets plus a lookup function, or as
association lists, depending on what the original code does with them.
-/

namespace Lantz

/-! ## helpers.solve_dependencies (src/lantz/core/helpers.py, lines 93-129)

The Python dict `d` maps a name to its set of remaining dependencies.  We
model it as a pair: the finite set of keys `s` and the stored-value
function `f` (only meaningful on `s`).  Names are natural numbers.

The `while d:` loop body is:
      t  = set(i for v in d.values() for i in v) - set(d.keys())
      t.update(k for k, v in d.items() if not v)
      r.append(t)
      d  = dict(((k, v - t) for k, v in d.items() if v))
The loop makes no progress when `t` is empty (then `d` is rebuilt
unchanged), so we run it on fuel and return `none` for a run that does not
terminate within the fuel.
-/

/-- The dependency set stored for `n`: the dict value if `n` is a key,
else the empty set (a missing key has no dependencies). -/
def depsOf (s : Finset ℕ) (f : ℕ → Finset ℕ) (n : ℕ) : Finset ℕ :=
  if n ∈ s then f n else ∅

/-- `set(i for v in d.values() for i in v)`: the union of all stored
dependency sets. -/
def valsOf (s : Finset ℕ) (f : ℕ → Finset ℕ) : Finset ℕ :=
  s.biUnion f

/-- The set `t` extracted by one loop iteration: values that are not keys,
together with keys whose stored dependency set is empty. -/
def levelSet (s : Finset ℕ) (f : ℕ → Finset ℕ) : Finset ℕ :=
  (valsOf s f \ s) ∪ s.filter (fun k => f k = ∅)

/-- Keys surviving one iteration: `(k, v - t) for k, v in d.items() if v`. -/
def stepKeys (s : Finset ℕ) (f : ℕ → Finset ℕ) : Finset ℕ :=
  s.filter (fun k => f k ≠ ∅)

/-- Stored values after one iteration: every surviving value is `v - t`. -/
def stepDeps (f : ℕ → Finset ℕ) (t : Finset ℕ) : ℕ → Finset ℕ :=
  fun n => f n \ t

/-- The `while d:` loop of `solve_dependencies`, on fuel.  `none` means the
loop did not finish within the given fuel. -/
def solveLoop : ℕ → Finset ℕ → (ℕ → Finset ℕ) → Option (List (Finset ℕ))
  | 0, s, _ => if s = ∅ then some [] else none
  | fuel + 1, s, f =>
    if s = ∅ then some []
    else
      (solveLoop fuel (stepKeys s f) (stepDeps f (levelSet s f))).map
        (fun r => levelSet s f :: r)

/-- Fuel measure: total size of the dict (one per entry plus the size of
each stored set).  Strictly decreases on every productive iteration. -/
def measureOf (s : Finset ℕ) (f : ℕ → Finset ℕ) : ℕ :=
  ∑ k ∈ s, (1 + (f k).card)

/-- The initial dict: `d = dict((key, set(value)) ...)` updated with
`{key: set() for key in all_members if key not in d}`. -/
def initDeps (dkeys : Finset ℕ) (ddeps : ℕ → Finset ℕ) : ℕ → Finset ℕ :=
  fun n => if n ∈ dkeys then ddeps n else ∅

/-- `helpers.solve_dependencies(dependencies, all_members)`.  The mapping is
given as its key set `dkeys` and value function `ddeps`; `none` models a
call that never returns (the Python loop spins forever). -/
def solve_dependencies (dkeys : Finset ℕ) (ddeps : ℕ → Finset ℕ)
    (all_members : Finset ℕ) : Option (List (Finset ℕ)) :=
  solveLoop (measureOf (dkeys ∪ all_members) (initDeps dkeys ddeps) + 1)
    (dkeys ∪ all_members) (initDeps dkeys ddeps)

/-- A true cycle: a nonempty set of names, each of which depends on some
member of the set. -/
def hasCycle (s : Finset ℕ) (f : ℕ → Finset ℕ) : Prop :=
  ∃ T ∈ s.powerset, T.Nonempty ∧ ∀ n ∈ T, (depsOf s f n ∩ T).Nonempty

instance (s : Finset ℕ) (f : ℕ → Finset ℕ) : Decidable (hasCycle s f) := by
  unfold hasCycle
  infer_instance

/-- The spec's test graph `{A: {}, B: {A}, C: {A}, D: {B, C}}` with
A, B, C, D as 0, 1, 2, 3. -/
def exampleDeps : ℕ → Finset ℕ
  | 1 => {0}
  | 2 => {0}
  | 3 => {1, 2}
  | _ => ∅

/-- Union of all levels of a result. -/
def unionAll (r : List (Finset ℕ)) : Finset ℕ :=
  r.foldr (fun a b => a ∪ b) ∅

/-- Union of the levels strictly below index `k`. -/
def unionTo (r : List (Finset ℕ)) (k : ℕ) : Finset ℕ :=
  unionAll (r.take k)

/-- All names mentioned by a `solve_dependencies` call: the mapping's keys,
every name inside a dependency set, and the members. -/
def universeOf (dkeys : Finset ℕ) (ddeps : ℕ → Finset ℕ)
    (all_members : Finset ℕ) : Finset ℕ :=
  dkeys ∪ dkeys.biUnion ddeps ∪ all_members

end Lantz

namespace Lantz

/-- The set of names with no dependency. -/
def noDepSet (s : Finset ℕ) (f : ℕ → Finset ℕ) : Finset ℕ :=
  (s ∪ valsOf s f).filter (fun n => depsOf s f n = ∅)

theorem levelSet_eq_noDepSet (s : Finset ℕ) (f : ℕ → Finset ℕ) :
    levelSet s f = noDepSet s f := by
  ext n
  simp only [levelSet, noDepSet, depsOf, Finset.mem_union, Finset.mem_filter,
    Finset.mem_sdiff]
  by_cases h : n ∈ s <;> simp [h]

theorem levelSet_subset (s : Finset ℕ) (f : ℕ → Finset ℕ) :
    levelSet s f ⊆ s ∪ valsOf s f := by
  rw [levelSet_eq_noDepSet]
  exact Finset.filter_subset _ _

theorem stepKeys_eq_sdiff (s : Finset ℕ) (f : ℕ → Finset ℕ) :
    stepKeys s f = s \ levelSet s f := by
  ext n
  simp only [stepKeys, levelSet, valsOf, Finset.mem_filter, Finset.mem_sdiff,
    Finset.mem_union]
  by_cases h : n ∈ s <;> simp [h]

theorem valsOf_step (s : Finset ℕ) (f : ℕ → Finset ℕ) (t : Finset ℕ) :
    valsOf (stepKeys s f) (stepDeps f t) = valsOf s f \ t := by
  ext n
  simp only [valsOf, stepKeys, stepDeps, Finset.mem_biUnion, Finset.mem_filter,
    Finset.mem_sdiff]
  constructor
  · rintro ⟨k, ⟨hk, -⟩, hn, hnt⟩
    exact ⟨⟨k, hk, hn⟩, hnt⟩
  · rintro ⟨⟨k, hk, hn⟩, hnt⟩
    exact ⟨k, ⟨hk, Finset.ne_empty_of_mem hn⟩, hn, hnt⟩

theorem names_step (s : Finset ℕ) (f : ℕ → Finset ℕ) :
    stepKeys s f ∪ valsOf (stepKeys s f) (stepDeps f (levelSet s f)) =
      (s ∪ valsOf s f) \ levelSet s f := by
  rw [valsOf_step, stepKeys_eq_sdiff, Finset.union_sdiff_distrib]

theorem solveLoop_some_nil {fuel : ℕ} {s : Finset ℕ} {f : ℕ → Finset ℕ}
    (h : solveLoop fuel s f = some []) : s = ∅ := by
  cases fuel with
  | zero =>
    by_contra hs
    simp [solveLoop, hs] at h
  | succ n =>
    by_contra hs
    simp only [solveLoop, hs, if_false] at h
    cases hr : solveLoop n (stepKeys s f) (stepDeps f (levelSet s f)) with
    | none => rw [hr] at h; simp at h
    | some r => rw [hr] at h; simp at h

theorem solveLoop_empty (fuel : ℕ) (f : ℕ → Finset ℕ) :
    solveLoop fuel ∅ f = some [] := by
  cases fuel <;> simp [solveLoop]

theorem unionAll_solveLoop :
    ∀ (fuel : ℕ) (s : Finset ℕ) (f : ℕ → Finset ℕ) (r : List (Finset ℕ)),
      solveLoop fuel s f = some r → unionAll r = s ∪ valsOf s f := by
  intro fuel
  induction fuel with
  | zero =>
    intro s f r h
    by_cases hs : s = ∅
    · subst hs
      simp [solveLoop] at h
      subst h
      simp [unionAll, valsOf]
    · simp [solveLoop, hs] at h
  | succ n ih =>
    intro s f r h
    by_cases hs : s = ∅
    · subst hs
      simp [solveLoop] at h
      subst h
      simp [unionAll, valsOf]
    · simp only [solveLoop, hs, if_false] at h
      cases hr : solveLoop n (stepKeys s f) (stepDeps f (levelSet s f)) with
      | none => rw [hr] at h; simp at h
      | some r' =>
        rw [hr] at h
        simp only [Option.map_some', Option.some.injEq] at h
        subst h
        have h1 := ih _ _ _ hr
        show levelSet s f ∪ unionAll r' = s ∪ valsOf s f
        rw [h1, names_step, Finset.union_sdiff_self_eq_union,
          Finset.union_comm (levelSet s f)]
        exact Finset.union_eq_left.mpr (levelSet_subset s f)

theorem mem_unionAll {l : List (Finset ℕ)} {a : Finset ℕ} (h : a ∈ l) :
    a ⊆ unionAll l := by
  induction l with
  | nil => cases h
  | cons b l ih =>
    rcases List.mem_cons.mp h with h | h
    · subst h
      exact Finset.subset_union_left
    · exact (ih h).trans Finset.subset_union_right

theorem pairwise_solveLoop :
    ∀ (fuel : ℕ) (s : Finset ℕ) (f : ℕ → Finset ℕ) (r : List (Finset ℕ)),
      solveLoop fuel s f = some r → r.Pairwise (fun a b => a ∩ b = ∅) := by
  intro fuel
  induction fuel with
  | zero =>
    intro s f r h
    by_cases hs : s = ∅
    · simp [solveLoop, hs] at h
      subst h
      exact List.Pairwise.nil
    · simp [solveLoop, hs] at h
  | succ n ih =>
    intro s f r h
    by_cases hs : s = ∅
    · simp [solveLoop, hs] at h
      subst h
      exact List.Pairwise.nil
    · simp only [solveLoop, hs, if_false] at h
      cases hr : solveLoop n (stepKeys s f) (stepDeps f (levelSet s f)) with
      | none => rw [hr] at h; simp at h
      | some r' =>
        rw [hr] at h
        simp only [Option.map_some', Option.some.injEq] at h
        subst h
        refine List.Pairwise.cons ?_ (ih _ _ _ hr)
        intro b hb
        have hsub : b ⊆ (s ∪ valsOf s f) \ levelSet s f := by
          have := mem_unionAll hb
          rwa [unionAll_solveLoop n _ _ _ hr, names_step] at this
        apply Finset.eq_empty_of_forall_not_mem
        intro x hx
        rcases Finset.mem_inter.mp hx with ⟨hx1, hx2⟩
        exact (Finset.mem_sdiff.mp (hsub hx2)).2 hx1

theorem headD_solveLoop {fuel : ℕ} {s : Finset ℕ} {f : ℕ → Finset ℕ}
    {r : List (Finset ℕ)} (h : solveLoop fuel s f = some r) :
    r.headD ∅ = noDepSet s f := by
  by_cases hs : s = ∅
  · subst hs
    rw [solveLoop_empty] at h
    cases h
    simp [noDepSet, valsOf]
  · cases fuel with
    | zero => simp [solveLoop, hs] at h
    | succ n =>
      simp only [solveLoop, hs, if_false] at h
      cases hr : solveLoop n (stepKeys s f) (stepDeps f (levelSet s f)) with
      | none => rw [hr] at h; simp at h
      | some r' =>
        rw [hr] at h
        simp only [Option.map_some', Option.some.injEq] at h
        subst h
        exact levelSet_eq_noDepSet s f

theorem unionTo_cons_succ (a : Finset ℕ) (l : List (Finset ℕ)) (k : ℕ) :
    unionTo (a :: l) (k + 1) = a ∪ unionTo l k := rfl

theorem depsOf_subset_unionTo :
    ∀ (fuel : ℕ) (s : Finset ℕ) (f : ℕ → Finset ℕ) (r : List (Finset ℕ)),
      solveLoop fuel s f = some r →
      ∀ (k : ℕ) (hk : k < r.length) (n : ℕ), n ∈ r.get ⟨k, hk⟩ →
        depsOf s f n ⊆ unionTo r k := by
  intro fuel
  induction fuel with
  | zero =>
    intro s f r h
    by_cases hs : s = ∅
    · simp [solveLoop, hs] at h
      subst h
      intro k hk
      simp at hk
    · simp [solveLoop, hs] at h
  | succ m ih =>
    intro s f r h
    by_cases hs : s = ∅
    · simp [solveLoop, hs] at h
      subst h
      intro k hk
      simp at hk
    · simp only [solveLoop, hs, if_false] at h
      cases hr : solveLoop m (stepKeys s f) (stepDeps f (levelSet s f)) with
      | none => rw [hr] at h; simp at h
      | some r' =>
        rw [hr] at h
        simp only [Option.map_some', Option.some.injEq] at h
        subst h
        intro k hk n hn
        cases k with
        | zero =>
          have hn0 : n ∈ levelSet s f := hn
          rw [levelSet_eq_noDepSet] at hn0
          rw [(Finset.mem_filter.mp hn0).2]
          exact Finset.empty_subset _
        | succ j =>
          have hj : j < r'.length := by
            simpa using hk
          have hn' : n ∈ r'.get ⟨j, hj⟩ := hn
          have hIH := ih _ _ _ hr j hj n hn'
          rw [unionTo_cons_succ]
          by_cases hns : n ∈ s
          · by_cases hfn : f n = ∅
            · rw [depsOf, if_pos hns, hfn]
              exact Finset.empty_subset _
            · have hnk : n ∈ stepKeys s f := Finset.mem_filter.mpr ⟨hns, hfn⟩
              rw [depsOf, if_pos hns]
              rw [depsOf, if_pos hnk] at hIH
              intro x hx
              by_cases hxt : x ∈ levelSet s f
              · exact Finset.mem_union_left _ hxt
              · refine Finset.mem_union_right _ (hIH ?_)
                exact Finset.mem_sdiff.mpr ⟨hx, hxt⟩
          · rw [depsOf, if_neg hns]
            exact Finset.empty_subset _

theorem mem_unionTo_iff :
    ∀ (r : List (Finset ℕ)) (k m : ℕ),
      m ∈ unionTo r k ↔ ∃ j, ∃ hj : j < r.length, j < k ∧ m ∈ r.get ⟨j, hj⟩ := by
  intro r
  induction r with
  | nil =>
    intro k m
    simp [unionTo, unionAll]
  | cons a l ih =>
    intro k m
    cases k with
    | zero =>
      simp [unionTo, unionAll]
    | succ k =>
      rw [unionTo_cons_succ]
      simp only [Finset.mem_union, ih]
      constructor
      · rintro (hm | ⟨j, hj, hjk, hmem⟩)
        · exact ⟨0, by simp, Nat.succ_pos _, hm⟩
        · exact ⟨j + 1, by simpa using hj, Nat.succ_lt_succ hjk, hmem⟩
      · rintro ⟨j, hj, hjk, hmem⟩
        cases j with
        | zero => exact Or.inl hmem
        | succ j =>
          exact Or.inr ⟨j, by simpa using hj, Nat.lt_of_succ_lt_succ hjk, hmem⟩

theorem stuck_hasCycle {s : Finset ℕ} {f : ℕ → Finset ℕ}
    (hs : s ≠ ∅) (ht : levelSet s f = ∅) : hasCycle s f := by
  have hparts := Finset.union_eq_empty.mp ht
  refine ⟨s, Finset.mem_powerset_self s, Finset.nonempty_iff_ne_empty.mpr hs, ?_⟩
  intro n hn
  have hfn : f n ≠ ∅ := by
    intro hfe
    have : n ∈ s.filter (fun k => f k = ∅) := Finset.mem_filter.mpr ⟨hn, hfe⟩
    rw [hparts.2] at this
    exact absurd this (Finset.not_mem_empty n)
  have hvs : valsOf s f ⊆ s := by
    intro x hx
    by_contra hxs
    have : x ∈ valsOf s f \ s := Finset.mem_sdiff.mpr ⟨hx, hxs⟩
    rw [hparts.1] at this
    exact absurd this (Finset.not_mem_empty x)
  rcases Finset.nonempty_iff_ne_empty.mpr hfn with ⟨x, hx⟩
  refine ⟨x, Finset.mem_inter.mpr ⟨?_, ?_⟩⟩
  · rwa [depsOf, if_pos hn]
  · exact hvs (Finset.mem_biUnion.mpr ⟨n, hn, hx⟩)

theorem hasCycle_step {s : Finset ℕ} {f : ℕ → Finset ℕ} {t : Finset ℕ}
    (h : hasCycle (stepKeys s f) (stepDeps f t)) : hasCycle s f := by
  rcases h with ⟨T, hT, hTne, hTdep⟩
  have hTs : T ⊆ s :=
    (Finset.mem_powerset.mp hT).trans (Finset.filter_subset _ _)
  refine ⟨T, Finset.mem_powerset.mpr hTs, hTne, ?_⟩
  intro n hn
  rcases hTdep n hn with ⟨x, hx⟩
  rcases Finset.mem_inter.mp hx with ⟨hx1, hx2⟩
  have hnk : n ∈ stepKeys s f := Finset.mem_powerset.mp hT hn
  rw [depsOf, if_pos hnk] at hx1
  refine ⟨x, Finset.mem_inter.mpr ⟨?_, hx2⟩⟩
  rw [depsOf, if_pos (hTs hn)]
  exact (Finset.mem_sdiff.mp hx1).1

theorem measure_step_lt {s : Finset ℕ} {f : ℕ → Finset ℕ}
    (ht : levelSet s f ≠ ∅) :
    measureOf (stepKeys s f) (stepDeps f (levelSet s f)) < measureOf s f := by
  rcases Finset.nonempty_iff_ne_empty.mpr ht with ⟨m, hm⟩
  rcases Finset.mem_union.mp hm with hmv | hmk
  · -- m is a value that is not a key: some surviving entry loses m
    rcases Finset.mem_sdiff.mp hmv with ⟨hmval, -⟩
    rcases Finset.mem_biUnion.mp hmval with ⟨k0, hk0, hmk0⟩
    have hk0' : k0 ∈ stepKeys s f :=
      Finset.mem_filter.mpr ⟨hk0, Finset.ne_empty_of_mem hmk0⟩
    have h1 : measureOf (stepKeys s f) (stepDeps f (levelSet s f)) <
        ∑ k ∈ stepKeys s f, (1 + (f k).card) := by
      apply Finset.sum_lt_sum
      · intro i _
        exact Nat.add_le_add_left (Finset.card_le_card Finset.sdiff_subset) 1
      · refine ⟨k0, hk0', ?_⟩
        apply Nat.add_lt_add_left
        apply Finset.card_lt_card
        refine ⟨Finset.sdiff_subset, ?_⟩
        intro hsub
        have := hsub hmk0
        exact (Finset.mem_sdiff.mp this).2 hm
    have h2 : ∑ k ∈ stepKeys s f, (1 + (f k).card) ≤ measureOf s f :=
      Finset.sum_le_sum_of_subset (Finset.filter_subset _ _)
    exact lt_of_lt_of_le h1 h2
  · -- some key has an empty dependency set and is dropped
    rcases Finset.mem_filter.mp hmk with ⟨hms, hfm⟩
    have h1 : measureOf (stepKeys s f) (stepDeps f (levelSet s f)) ≤
        ∑ k ∈ stepKeys s f, (1 + (f k).card) := by
      apply Finset.sum_le_sum
      intro i _
      exact Nat.add_le_add_left (Finset.card_le_card Finset.sdiff_subset) 1
    have hsub : stepKeys s f ⊆ s.erase m := by
      intro k hk
      rcases Finset.mem_filter.mp hk with ⟨hks, hkne⟩
      refine Finset.mem_erase.mpr ⟨?_, hks⟩
      intro hkm
      exact hkne (hkm ▸ hfm)
    have h2 : ∑ k ∈ stepKeys s f, (1 + (f k).card) ≤
        ∑ k ∈ s.erase m, (1 + (f k).card) :=
      Finset.sum_le_sum_of_subset hsub
    have h3 : ∑ k ∈ s.erase m, (1 + (f k).card) < measureOf s f := by
      have h4 : ∑ k ∈ s.erase m, (1 + (f k).card) + (1 + (f m).card) =
          ∑ k ∈ s, (1 + (f k).card) := Finset.sum_erase_add s _ hms
      unfold measureOf
      omega
    omega

theorem solveLoop_total :
    ∀ (fuel : ℕ) (s : Finset ℕ) (f : ℕ → Finset ℕ),
      measureOf s f < fuel → ¬ hasCycle s f →
      ∃ r, solveLoop fuel s f = some r := by
  intro fuel
  induction fuel with
  | zero =>
    intro s f hm hc
    exact absurd hm (by omega)
  | succ n ih =>
    intro s f hm hc
    by_cases hs : s = ∅
    · exact ⟨[], by simp [solveLoop, hs]⟩
    · have ht : levelSet s f ≠ ∅ := fun ht => hc (stuck_hasCycle hs ht)
      have hlt := measure_step_lt (f := f) ht
      have hc' : ¬ hasCycle (stepKeys s f) (stepDeps f (levelSet s f)) :=
        fun h => hc (hasCycle_step h)
      rcases ih (stepKeys s f) (stepDeps f (levelSet s f)) (by omega) hc' with ⟨r', hr'⟩
      exact ⟨levelSet s f :: r', by simp [solveLoop, hs, hr']⟩

theorem depsOf_init (dkeys : Finset ℕ) (ddeps : ℕ → Finset ℕ)
    (am : Finset ℕ) (n : ℕ) :
    depsOf (dkeys ∪ am) (initDeps dkeys ddeps) n =
      if n ∈ dkeys then ddeps n else ∅ := by
  unfold depsOf initDeps
  by_cases h : n ∈ dkeys
  · simp [h, Finset.mem_union_left am h]
  · by_cases h2 : n ∈ dkeys ∪ am <;> simp [h, h2]

theorem valsOf_init (dkeys : Finset ℕ) (ddeps : ℕ → Finset ℕ) (am : Finset ℕ) :
    valsOf (dkeys ∪ am) (initDeps dkeys ddeps) = dkeys.biUnion ddeps := by
  ext n
  simp only [valsOf, initDeps, Finset.mem_biUnion, Finset.mem_union]
  constructor
  · rintro ⟨k, hk, hn⟩
    by_cases h : k ∈ dkeys
    · rw [if_pos h] at hn
      exact ⟨k, h, hn⟩
    · rw [if_neg h] at hn
      exact absurd hn (Finset.not_mem_empty n)
  · rintro ⟨k, hk, hn⟩
    exact ⟨k, Or.inl hk, by rwa [if_pos hk]⟩

theorem names_init (dkeys : Finset ℕ) (ddeps : ℕ → Finset ℕ) (am : Finset ℕ) :
    (dkeys ∪ am) ∪ valsOf (dkeys ∪ am) (initDeps dkeys ddeps) =
      universeOf dkeys ddeps am := by
  rw [valsOf_init, universeOf]
  ext n
  simp only [Finset.mem_union]
  tauto

/-- C1: the spec's dependency-leveling property of `solve_dependencies`:
the concrete graph `{A: {}, B: {A}, C: {A}, D: {B, C}}` yields levels
`[{A}, {B, C}, {D}]`; and for every acyclic mapping plus universe of
member names, level 0 is the set of all names with no dependency, and
every dependency of a name placed in level `k` appears in some level
strictly below `k`. -/
theorem solve_dependencies_leveling :
    (solve_dependencies {0, 1, 2, 3} exampleDeps ∅ = some [{0}, {1, 2}, {3}]) ∧
    ∀ (dkeys : Finset ℕ) (ddeps : ℕ → Finset ℕ) (am : Finset ℕ),
      ¬ hasCycle (dkeys ∪ am) (initDeps dkeys ddeps) →
      ∃ r, solve_dependencies dkeys ddeps am = some r ∧
        r.headD ∅ = (universeOf dkeys ddeps am).filter
            (fun n => (if n ∈ dkeys then ddeps n else ∅) = ∅) ∧
        ∀ (k : ℕ) (hk : k < r.length) (n : ℕ), n ∈ r.get ⟨k, hk⟩ →
          ∀ m ∈ (if n ∈ dkeys then ddeps n else ∅),
            ∃ j, ∃ hj : j < r.length, j < k ∧ m ∈ r.get ⟨j, hj⟩ := by
  constructor
  · decide
  · intro dk dd am hc
    obtain ⟨r, hr⟩ := solveLoop_total (measureOf (dk ∪ am) (initDeps dk dd) + 1)
      (dk ∪ am) (initDeps dk dd) (by omega) hc
    refine ⟨r, hr, ?_, ?_⟩
    · rw [headD_solveLoop hr]
      unfold noDepSet
      rw [names_init]
      apply Finset.filter_congr
      intro n _
      rw [depsOf_init]
    · intro k hk n hn m hm
      have h1 := depsOf_subset_unionTo _ _ _ _ hr k hk n hn
      have hm' : m ∈ depsOf (dk ∪ am) (initDeps dk dd) n := by
        rw [depsOf_init]
        exact hm
      exact (mem_unionTo_iff r k m).mp (h1 hm')

/-- Witness for C1 at the spec's concrete graph. -/
theorem solve_dependencies_leveling_witness :
    (¬ hasCycle ({0, 1, 2, 3} ∪ ∅) (initDeps {0, 1, 2, 3} exampleDeps)) ∧
    (∃ r, solve_dependencies {0, 1, 2, 3} exampleDeps ∅ = some r ∧
      r.headD ∅ = (universeOf {0, 1, 2, 3} exampleDeps ∅).filter
          (fun n => (if n ∈ ({0, 1, 2, 3} : Finset ℕ) then exampleDeps n else ∅) = ∅) ∧
      ∀ (k : ℕ) (hk : k < r.length) (n : ℕ), n ∈ r.get ⟨k, hk⟩ →
        ∀ m ∈ (if n ∈ ({0, 1, 2, 3} : Finset ℕ) then exampleDeps n else ∅),
          ∃ j, ∃ hj : j < r.length, j < k ∧ m ∈ r.get ⟨j, hj⟩) :=
  ⟨by decide, solve_dependencies_leveling.2 {0, 1, 2, 3} exampleDeps ∅ (by decide)⟩

/-- C10: for every acyclic mapping and member collection, the levels
returned by `solve_dependencies` form a partition of the union of the
mapping's keys, all names inside dependency sets, and the members; a name
appearing only as a dependency is not dropped and lands in level 0. -/
theorem solve_dependencies_partition :
    ∀ (dkeys : Finset ℕ) (ddeps : ℕ → Finset ℕ) (am : Finset ℕ),
      ¬ hasCycle (dkeys ∪ am) (initDeps dkeys ddeps) →
      ∃ r, solve_dependencies dkeys ddeps am = some r ∧
        r.Pairwise (fun a b => a ∩ b = ∅) ∧
        unionAll r = universeOf dkeys ddeps am ∧
        ∀ n ∈ dkeys.biUnion ddeps, n ∉ dkeys → n ∉ am → n ∈ r.headD ∅ := by
  intro dk dd am hc
  obtain ⟨r, hr⟩ := solveLoop_total (measureOf (dk ∪ am) (initDeps dk dd) + 1)
    (dk ∪ am) (initDeps dk dd) (by omega) hc
  refine ⟨r, hr, pairwise_solveLoop _ _ _ _ hr, ?_, ?_⟩
  · rw [unionAll_solveLoop _ _ _ _ hr, names_init]
  · intro n hnv hnk hnm
    rw [headD_solveLoop hr]
    unfold noDepSet
    refine Finset.mem_filter.mpr ⟨?_, ?_⟩
    · refine Finset.mem_union_right _ ?_
      rw [valsOf_init]
      exact hnv
    · rw [depsOf_init, if_neg hnk]

/-- Witness for C10: a graph with the member 9 disconnected and the name
5 appearing only as a dependency. -/
theorem solve_dependencies_partition_witness :
    (¬ hasCycle ({1, 2} ∪ {9}) (initDeps {1, 2} fun n => if n = 2 then {5} else ∅)) ∧
    (∃ r, solve_dependencies {1, 2} (fun n => if n = 2 then {5} else ∅) {9} = some r ∧
      r.Pairwise (fun a b => a ∩ b = ∅) ∧
      unionAll r = universeOf {1, 2} (fun n => if n = 2 then {5} else ∅) {9} ∧
      ∀ n ∈ Finset.biUnion {1, 2} (fun n => if n = 2 then {5} else ∅),
        n ∉ ({1, 2} : Finset ℕ) → n ∉ ({9} : Finset ℕ) → n ∈ r.headD ∅) :=
  ⟨by decide, solve_dependencies_partition {1, 2} (fun n => if n = 2 then {5} else ∅)
    {9} (by decide)⟩

/-! ### C2: behaviour on a true cycle

The `while d:` loop has no cycle detection: when the extracted set `t` is
empty and `d` is not, the rebuilt dict equals `d` and the loop spins
forever (appending empty levels).  The spec requires a detectable failure
instead. -/

theorem solveLoop_stuck {s : Finset ℕ} {f : ℕ → Finset ℕ}
    (hs : s ≠ ∅) (ht : levelSet s f = ∅) :
    ∀ fuel, solveLoop fuel s f = none := by
  have hkeys : stepKeys s f = s := by
    have hparts := Finset.union_eq_empty.mp ht
    apply Finset.filter_true_of_mem
    intro k hk hfe
    have : k ∈ s.filter (fun k => f k = ∅) := Finset.mem_filter.mpr ⟨hk, hfe⟩
    rw [hparts.2] at this
    exact absurd this (Finset.not_mem_empty k)
  have hdeps : stepDeps f (levelSet s f) = f := by
    funext n
    rw [ht]
    simp [stepDeps]
  intro fuel
  induction fuel with
  | zero => simp [solveLoop, hs]
  | succ n ih =>
    simp only [solveLoop, hs, if_false]
    rw [hkeys, hdeps, ih]
    rfl

/-- The mapping `{A: {B}, B: {A}}`, a true cycle, with A, B as 0, 1. -/
def cycleDeps : ℕ → Finset ℕ
  | 0 => {1}
  | 1 => {0}
  | _ => ∅

/-- C2 (the code is the divergence): on the cyclic mapping
`{A: {B}, B: {A}}` the loop of `solve_dependencies` makes no progress and
never terminates, for any amount of fuel — it neither raises nor returns. -/
theorem solve_dependencies_cycle_diverges :
    hasCycle ({0, 1} ∪ ∅) (initDeps {0, 1} cycleDeps) ∧
    (∀ fuel, solveLoop fuel ({0, 1} ∪ ∅) (initDeps {0, 1} cycleDeps) = none) ∧
    solve_dependencies {0, 1} cycleDeps ∅ = none := by
  refine ⟨by decide, ?_, by decide⟩
  exact solveLoop_stuck (by decide) (by decide)

/-! ## processors.py (src/lantz/core/processors.py)

Error model: the Python code raises `ValueError` or `TypeError`; messages
are not modelled. -/

inductive PyErr where
  | valueError
  | typeError
  deriving DecidableEq

instance {ε α : Type} [DecidableEq ε] [DecidableEq α] :
    DecidableEq (Except ε α) := fun a b =>
  match a, b with
  | .ok x, .ok y =>
    if h : x = y then isTrue (by rw [h]) else isFalse (by simp [h])
  | .error x, .error y =>
    if h : x = y then isTrue (by rw [h]) else isFalse (by simp [h])
  | .ok _, .error _ => isFalse (by simp)
  | .error _, .ok _ => isFalse (by simp)

/-- Python 3 `round` on an exact value: round-half-to-even. -/
def pyRound (q : ℚ) : ℤ :=
  if q - ⌊q⌋ = 1 / 2 then (if 2 ∣ ⌊q⌋ then ⌊q⌋ else ⌊q⌋ + 1) else round q

/-- `processors.range_checker_coercer(low, high, step)` applied to `value`
(lines 139-179): raise unless `low <= value <= high`, then, when `step` is
truthy (given and nonzero), snap to
`round((value - low) / step) * step + low`. -/
def range_checker_coercer (low high : ℚ) (step : Option ℚ) (value : ℚ) :
    Except PyErr ℚ :=
  if ¬ (low ≤ value ∧ value ≤ high) then .error .valueError
  else
    match step with
    | none => .ok value
    | some s =>
      if s = 0 then .ok value
      else .ok ((pyRound ((value - low) / s) : ℚ) * s + low)

theorem pyRound_intCast (k : ℤ) : pyRound (k : ℚ) = k := by
  unfold pyRound
  rw [Int.floor_intCast, round_intCast]
  simp

theorem pyRound_nonneg {q : ℚ} (h : 0 ≤ q) : 0 ≤ pyRound q := by
  unfold pyRound
  split
  · have hf : (0 : ℤ) ≤ ⌊q⌋ := Int.floor_nonneg.mpr h
    split <;> omega
  · rw [round_eq]
    refine Int.floor_nonneg.mpr ?_
    linarith

theorem pyRound_nonpos {q : ℚ} (h : q ≤ 0) : pyRound q ≤ 0 := by
  unfold pyRound
  split
  · rename_i hhalf
    have hq : q = ⌊q⌋ + 1 / 2 := by linarith
    have hf : (⌊q⌋ : ℚ) ≤ -(1 / 2) := by linarith
    have hf' : ⌊q⌋ < 0 := by
      by_contra hc
      push_neg at hc
      have : (0 : ℚ) ≤ (⌊q⌋ : ℚ) := by exact_mod_cast hc
      linarith
    split <;> omega
  · rw [round_eq]
    have h1 : q + 1 / 2 ≤ 1 / 2 := by linarith
    calc ⌊q + 1 / 2⌋ ≤ ⌊(1 : ℚ) / 2⌋ := Int.floor_mono h1
      _ = 0 := by norm_num

theorem pyRound_three_halves : pyRound (3 / 2) = 2 := by
  unfold pyRound
  rw [show ⌊(3 / 2 : ℚ)⌋ = 1 by norm_num]
  norm_num

/-- C7 counterexample: for the range spec `(0, 6, 4)` and the in-range
value 6, the first application snaps to 8 (above `high`), so the second
application raises instead of returning the same value. -/
theorem range_checker_coercer_not_idempotent :
    range_checker_coercer 0 6 (some 4) 6 = .ok 8 ∧
    range_checker_coercer 0 6 (some 4) 8 = .error .valueError := by
  constructor
  · unfold range_checker_coercer
    rw [if_neg (by norm_num)]
    show (if (4 : ℚ) = 0 then _ else _) = _
    rw [if_neg (by norm_num)]
    rw [show ((6 : ℚ) - 0) / 4 = 3 / 2 by norm_num, pyRound_three_halves]
    norm_num
  · unfold range_checker_coercer
    rw [if_pos (by norm_num)]

/-- C7 (amended): the range checker/coercer is idempotent on every value
whose first (successful) application also lands at or below `high`:
the snapped result is a grid point fixed by a second application. -/
theorem range_checker_coercer_idempotent :
    ∀ (low high s v r : ℚ), s ≠ 0 → low ≤ v → v ≤ high →
      range_checker_coercer low high (some s) v = .ok r → r ≤ high →
      range_checker_coercer low high (some s) r = .ok r := by
  intro low high s v r hs hlv hvh hcall hrh
  unfold range_checker_coercer at hcall
  rw [if_neg (not_not_intro ⟨hlv, hvh⟩)] at hcall
  have hcall' : (if s = 0 then Except.ok v
      else Except.ok ((pyRound ((v - low) / s) : ℚ) * s + low)) =
      (Except.ok r : Except PyErr ℚ) := hcall
  rw [if_neg hs] at hcall'
  have hr : (pyRound ((v - low) / s) : ℚ) * s + low = r := Except.ok.inj hcall'
  have hks : (0 : ℚ) ≤ (pyRound ((v - low) / s) : ℚ) * s := by
    rcases lt_trichotomy s 0 with hneg | hzero | hpos
    · have hdiv : (v - low) / s ≤ 0 :=
        div_nonpos_iff.mpr (Or.inl ⟨by linarith, hneg.le⟩)
      have hk : pyRound ((v - low) / s) ≤ 0 := pyRound_nonpos hdiv
      have hk' : (pyRound ((v - low) / s) : ℚ) ≤ 0 := by exact_mod_cast hk
      nlinarith [hk', hneg.le]
    · exact absurd hzero hs
    · have hdiv : 0 ≤ (v - low) / s := div_nonneg (by linarith) hpos.le
      have hk : 0 ≤ pyRound ((v - low) / s) := pyRound_nonneg hdiv
      have hk' : (0 : ℚ) ≤ (pyRound ((v - low) / s) : ℚ) := by exact_mod_cast hk
      exact mul_nonneg hk' hpos.le
  have hlr : low ≤ r := by linarith
  unfold range_checker_coercer
  rw [if_neg (not_not_intro ⟨hlr, hrh⟩)]
  show (if s = 0 then Except.ok r
      else Except.ok ((pyRound ((r - low) / s) : ℚ) * s + low)) = Except.ok r
  rw [if_neg hs]
  have hdivk : (r - low) / s = (pyRound ((v - low) / s) : ℚ) := by
    rw [← hr]
    field_simp
  rw [hdivk, pyRound_intCast, hr]

/-- Witness for the amended C7 at the spec `(0, 10, 2)` and value 4. -/
theorem range_checker_coercer_idempotent_witness :
    ((2 : ℚ) ≠ 0 ∧ (0 : ℚ) ≤ 4 ∧ (4 : ℚ) ≤ 10) ∧
    range_checker_coercer 0 10 (some 2) 4 = .ok 4 :=
  ⟨⟨by norm_num, by norm_num, by norm_num⟩,
    range_checker_coercer_idempotent 0 10 2 4 4 (by norm_num) (by norm_num)
      (by norm_num)
      (by
        unfold range_checker_coercer
        rw [if_neg (by norm_num)]
        show (if (2 : ℚ) = 0 then _ else _) = _
        rw [if_neg (by norm_num),
          show ((4 : ℚ) - 0) / 2 = ((2 : ℤ) : ℚ) by norm_num, pyRound_intCast]
        norm_num)
      (by norm_num)⟩

/-! ## processors.mapper and processors.reverse_mapper_or_checker
(src/lantz/core/processors.py, lines 215-246 and 472-500)

A Python dict is an insertion-ordered association list with unique keys;
`dinsert` is dict item assignment (overwrite in place, else append), and
`dlookup` is key lookup. -/

/-- Python dict lookup `container[key]` / `key in container`. -/
def dlookup {α β : Type} [DecidableEq α] : List (α × β) → α → Option β
  | [], _ => none
  | (k, v) :: rest, key => if key = k then some v else dlookup rest key

/-- Python dict item assignment `d[k] = v`: overwrite an existing binding
in place, otherwise append a new one. -/
def dinsert {α β : Type} [DecidableEq α] : List (α × β) → α → β → List (α × β)
  | [], k, v => [(k, v)]
  | (k0, v0) :: rest, k, v =>
    if k = k0 then (k0, v) :: rest else (k0, v0) :: dinsert rest k v

/-- `mapper(container)` applied to `key`: raise `ValueError` when the key
is absent, else return `container[key]`. -/
def mapper {α β : Type} [DecidableEq α] (container : List (α × β)) (key : α) :
    Except PyErr β :=
  match dlookup container key with
  | none => .error .valueError
  | some v => .ok v

/-- The dict comprehension `{value: key for key, value in container.items()}`:
insert the swapped pairs in iteration order (a later duplicate value
overwrites the earlier binding). -/
def reversedDict {α β : Type} [DecidableEq β] (container : List (α × β)) :
    List (β × α) :=
  container.foldl (fun acc p => dinsert acc p.2 p.1) []

/-- `reverse_mapper_or_checker(container)` for a dict, applied to `value`:
`mapper` over the reversed dict. -/
def reverse_mapper_or_checker {α β : Type} [DecidableEq α] [DecidableEq β]
    (container : List (α × β)) (value : β) : Except PyErr α :=
  mapper (reversedDict container) value

theorem dlookup_mem {α β : Type} [DecidableEq α] :
    ∀ {l : List (α × β)} {k : α} {v : β}, dlookup l k = some v → (k, v) ∈ l := by
  intro l
  induction l with
  | nil => intro k v h; cases h
  | cons p rest ih =>
    intro k v h
    rw [dlookup] at h
    by_cases hk : k = p.1
    · rw [if_pos hk] at h
      cases h
      subst hk
      exact List.mem_cons_self _ _
    · rw [if_neg hk] at h
      exact List.mem_cons_of_mem _ (ih h)

theorem dlookup_eq_none {α β : Type} [DecidableEq α] :
    ∀ {l : List (α × β)} {x : α}, x ∉ l.map Prod.fst → dlookup l x = none := by
  intro l
  induction l with
  | nil => intro x _; rfl
  | cons p rest ih =>
    intro x hx
    rw [List.map_cons, List.mem_cons] at hx
    push_neg at hx
    rw [dlookup, if_neg hx.1]
    exact ih hx.2

theorem dinsert_fresh {α β : Type} [DecidableEq α] :
    ∀ {l : List (α × β)} {k : α} (v : β), k ∉ l.map Prod.fst →
      dinsert l k v = l ++ [(k, v)] := by
  intro l
  induction l with
  | nil => intro k v _; rfl
  | cons p rest ih =>
    intro k v hk
    rw [List.map_cons, List.mem_cons] at hk
    push_neg at hk
    rw [dinsert, if_neg hk.1, ih v hk.2]
    rfl

theorem reversedDict_aux {α β : Type} [DecidableEq β] :
    ∀ (l : List (α × β)) (acc : List (β × α)),
      (l.map Prod.snd).Nodup →
      (∀ y ∈ l.map Prod.snd, y ∉ acc.map Prod.fst) →
      l.foldl (fun acc p => dinsert acc p.2 p.1) acc =
        acc ++ l.map (fun p => (p.2, p.1)) := by
  intro l
  induction l with
  | nil => intro acc _ _; simp
  | cons p rest ih =>
    intro acc hnd hfresh
    rw [List.map_cons] at hnd
    have hnd1 := List.nodup_cons.mp hnd
    rw [List.foldl_cons,
      dinsert_fresh p.1 (hfresh p.2 (by simp)),
      ih (acc ++ [(p.2, p.1)]) hnd1.2 ?_]
    · simp
    · intro y hy
      rw [List.map_append, List.mem_append]
      push_neg
      refine ⟨hfresh y (by simp [hy]), ?_⟩
      simp only [List.map_cons, List.map_nil, List.mem_singleton]
      intro hcon
      rw [hcon] at hy
      exact hnd1.1 hy

theorem reversedDict_eq_map_swap {α β : Type} [DecidableEq β]
    (l : List (α × β)) (hnd : (l.map Prod.snd).Nodup) :
    reversedDict l = l.map (fun p => (p.2, p.1)) := by
  rw [reversedDict, reversedDict_aux l [] hnd (by simp)]
  rfl

theorem dlookup_map_swap_of_mem {α β : Type} [DecidableEq β] :
    ∀ {l : List (α × β)} {k : α} {v : β},
      (l.map Prod.snd).Nodup → (k, v) ∈ l →
      dlookup (l.map (fun p => (p.2, p.1))) v = some k := by
  intro l
  induction l with
  | nil => intro k v _ h; cases h
  | cons p rest ih =>
    intro k v hnd hmem
    rw [List.map_cons] at hnd ⊢
    have hnd1 := List.nodup_cons.mp hnd
    rcases List.mem_cons.mp hmem with heq | hmem'
    · rw [← heq, dlookup, if_pos rfl]
    · have hvp : v ≠ p.2 := by
        intro hcon
        refine hnd1.1 ?_
        rw [← hcon]
        exact List.mem_map.mpr ⟨(k, v), hmem', rfl⟩
      rw [dlookup, if_neg hvp]
      exact ih hnd1.2 hmem'

theorem dlookup_map_swap_of_not_mem {α β : Type} [DecidableEq β] :
    ∀ {l : List (α × β)} {y : β}, y ∉ l.map Prod.snd →
      dlookup (l.map (fun p => (p.2, p.1))) y = none := by
  intro l y hy
  apply dlookup_eq_none
  intro hcon
  apply hy
  rcases List.mem_map.mp hcon with ⟨q, hq, hq2⟩
  rcases List.mem_map.mp hq with ⟨p, hp, hp2⟩
  refine List.mem_map.mpr ⟨p, hp, ?_⟩
  rw [← hp2] at hq2
  exact hq2

/-- C8 counterexample: the dict `{0: 5, 1: 5}` is a valid values mapping
(unique keys) on which the round trip fails: 0 is in the domain, yet
`reverse_mapper(mapper(0)) = reverse_mapper(5) = 1 ≠ 0` because the later
entry overwrote the reversed binding. -/
theorem mapper_roundtrip_counterexample :
    dlookup [(0, 5), (1, 5)] 0 = some 5 ∧
    mapper [(0, 5), (1, 5)] 0 = Except.ok 5 ∧
    reverse_mapper_or_checker [(0, 5), (1, 5)] 5 ≠ Except.ok 0 := by
  decide

theorem mem_fst_dinsert {α β : Type} [DecidableEq α] :
    ∀ {l : List (α × β)} {k x : α} {v : β},
      x ∈ (dinsert l k v).map Prod.fst → x ∈ l.map Prod.fst ∨ x = k := by
  intro l
  induction l with
  | nil =>
    intro k x v h
    simp only [dinsert, List.map_cons, List.map_nil, List.mem_singleton] at h
    exact Or.inr h
  | cons p rest ih =>
    intro k x v h
    rw [dinsert] at h
    by_cases hk : k = p.1
    · rw [if_pos hk] at h
      simp only [List.map_cons, List.mem_cons] at h
      rcases h with h | h
      · exact Or.inl (by simp [h])
      · exact Or.inl (by simp [h])
    · rw [if_neg hk] at h
      simp only [List.map_cons, List.mem_cons] at h
      rcases h with h | h
      · exact Or.inl (by simp [h])
      · rcases ih h with h2 | h2
        · exact Or.inl (by simp [h2])
        · exact Or.inr h2

theorem mem_fst_foldl_dinsert {α β : Type} [DecidableEq β] :
    ∀ (l : List (α × β)) (acc : List (β × α)) {y : β},
      y ∈ (l.foldl (fun acc p => dinsert acc p.2 p.1) acc).map Prod.fst →
      y ∈ acc.map Prod.fst ∨ y ∈ l.map Prod.snd := by
  intro l
  induction l with
  | nil =>
    intro acc y h
    exact Or.inl h
  | cons p rest ih =>
    intro acc y h
    rw [List.foldl_cons] at h
    rcases ih (dinsert acc p.2 p.1) h with h2 | h2
    · rcases mem_fst_dinsert h2 with h3 | h3
      · exact Or.inl h3
      · exact Or.inr (by simp [h3])
    · exact Or.inr (by simp [h2])

/-- Unconditionally, every key of the reversed dict is a value of the
original dict, so a non-value fails the reverse lookup. -/
theorem dlookup_reversedDict_of_not_mem {α β : Type} [DecidableEq β]
    {l : List (α × β)} {y : β} (hy : y ∉ l.map Prod.snd) :
    dlookup (reversedDict l) y = none := by
  apply dlookup_eq_none
  intro hcon
  rcases mem_fst_foldl_dinsert l [] hcon with h | h
  · cases h
  · exact hy h

/-- C8 (amended, injectivity added for the round trip): for every
dict-based values mapping with pairwise-distinct values,
`reverse_mapper(mapper(v)) == v` on the domain; and, for every dict-based
values mapping whatsoever, the forward mapper raises `ValueError` off the
key set and the reverse mapper raises `ValueError` off the value set. -/
theorem mapper_reverse_roundtrip {α β : Type} [DecidableEq α] [DecidableEq β]
    (l : List (α × β)) :
    ((l.map Prod.snd).Nodup → ∀ k v, dlookup l k = some v →
      mapper l k = Except.ok v ∧ reverse_mapper_or_checker l v = Except.ok k) ∧
    (∀ x, x ∉ l.map Prod.fst → mapper l x = Except.error PyErr.valueError) ∧
    (∀ y, y ∉ l.map Prod.snd →
      reverse_mapper_or_checker l y = Except.error PyErr.valueError) := by
  refine ⟨?_, ?_, ?_⟩
  · intro hnd k v hkv
    constructor
    · rw [mapper, hkv]
    · rw [reverse_mapper_or_checker, reversedDict_eq_map_swap l hnd, mapper,
        dlookup_map_swap_of_mem hnd (dlookup_mem hkv)]
  · intro x hx
    rw [mapper, dlookup_eq_none hx]
  · intro y hy
    rw [reverse_mapper_or_checker, mapper, dlookup_reversedDict_of_not_mem hy]

/-- Witness for the amended C8 at the injective dict `{0: 5, 1: 6}` and
the off-domain input 9. -/
theorem mapper_reverse_roundtrip_witness :
    (([(0, 5), (1, 6)].map Prod.snd).Nodup ∧ dlookup [(0, 5), (1, 6)] 1 = some 6 ∧
      (9 : ℕ) ∉ [(0, 5), (1, 6)].map Prod.fst ∧
      (9 : ℕ) ∉ [(0, 5), (1, 6)].map Prod.snd) ∧
    ((mapper [(0, 5), (1, 6)] 1 = Except.ok 6 ∧
        reverse_mapper_or_checker [(0, 5), (1, 6)] 6 = Except.ok 1) ∧
      mapper [(0, 5), (1, 6)] 9 = Except.error PyErr.valueError ∧
      reverse_mapper_or_checker [(0, 5), (1, 6)] 9 = Except.error PyErr.valueError) :=
  ⟨⟨by decide, by decide, by decide, by decide⟩,
    ⟨(mapper_reverse_roundtrip [(0, 5), (1, 6)]).1 (by decide) 1 6 (by decide),
      (mapper_reverse_roundtrip [(0, 5), (1, 6)]).2.1 9 (by decide),
      (mapper_reverse_roundtrip [(0, 5), (1, 6)]).2.2 9 (by decide)⟩⟩

/-! ## flock.py: the sequential branch of `initialize_many`
(src/lantz/core/flock.py, lines 302-317)

For one level of drivers (no `dependencies` argument) run sequentially:
      for driver in drivers:
          if on_initializing: on_initializing(driver)
          try:              driver.initialize()
          except ... as ex: raise ex  (no hook)  /  on_exception(driver, ex)
          else:             if on_initialized: on_initialized(driver)
          if register_finalizer: atexit.register(driver.finalize)
A driver is modelled by its name, whether its initialize raises, and the
error value it raises with; the run is modelled by its event trace. -/

structure Driver where
  name : ℕ
  initFails : Bool
  errVal : ℕ
  deriving DecidableEq

inductive Event where
  | onInitializing (d : ℕ)
  | initCalled (d : ℕ)
  | onInitialized (d : ℕ)
  | onException (d : ℕ) (e : ℕ)
  | atexitRegister (d : ℕ)
  | raised (e : ℕ)
  deriving DecidableEq

/-- Events of the `if on_initializing:` line. -/
def preEvents (hi : Bool) (d : Driver) : List Event :=
  if hi then [.onInitializing d.name] else []

/-- Events of the `if on_initialized:` line. -/
def okEvents (hd : Bool) (d : Driver) : List Event :=
  if hd then [.onInitialized d.name] else []

/-- Events of the `if register_finalizer:` line (note: in the source this
line is outside the try/except/else, so it also runs after a failure that
the `on_exception` hook handled). -/
def regEvents (rf : Bool) (d : Driver) : List Event :=
  if rf then [.atexitRegister d.name] else []

/-- Event trace of the sequential loop of `initialize_many`.  The flags
are: `rf` = register_finalizer, `hi` = on_initializing given, `hd` =
on_initialized given, `he` = on_exception given. -/
def initMany (rf hi hd he : Bool) : List Driver → List Event
  | [] => []
  | d :: rest =>
    if d.initFails then
      if he then
        preEvents hi d ++ [.initCalled d.name, .onException d.name d.errVal] ++
          regEvents rf d ++ initMany rf hi hd he rest
      else
        preEvents hi d ++ [.initCalled d.name, .raised d.errVal]
    else
      preEvents hi d ++ [.initCalled d.name] ++ okEvents hd d ++
        regEvents rf d ++ initMany rf hi hd he rest

/-- Is the event a call of the `on_exception` hook? -/
def isExc : Event → Bool
  | .onException _ _ => true
  | _ => false

@[simp] theorem filter_isExc_preEvents (hi : Bool) (d : Driver) :
    (preEvents hi d).filter isExc = [] := by
  cases hi <;> rfl

@[simp] theorem filter_isExc_okEvents (hd : Bool) (d : Driver) :
    (okEvents hd d).filter isExc = [] := by
  cases hd <;> rfl

@[simp] theorem filter_isExc_regEvents (rf : Bool) (d : Driver) :
    (regEvents rf d).filter isExc = [] := by
  cases rf <;> rfl

theorem filter_isExc_initMany_ok {l : List Driver} (rf hi hd he : Bool)
    (h : ∀ d ∈ l, d.initFails = false) :
    (initMany rf hi hd he l).filter isExc = [] := by
  induction l with
  | nil => rfl
  | cons d rest ih =>
    have hd0 : d.initFails = false := h d (List.mem_cons_self _ _)
    rw [initMany, if_neg (by simp [hd0])]
    simp only [List.filter_append, filter_isExc_preEvents, filter_isExc_okEvents,
      filter_isExc_regEvents, ih fun x hx => h x (List.mem_cons_of_mem _ hx)]
    rfl

theorem initCalled_mem_of_mem {l : List Driver} (rf hi hd : Bool)
    {d : Driver} (hmem : d ∈ l) :
    Event.initCalled d.name ∈ initMany rf hi hd true l := by
  induction l with
  | nil => cases hmem
  | cons d0 rest ih =>
    rcases List.mem_cons.mp hmem with heq | hmem'
    · subst heq
      rw [initMany]
      by_cases hf : d.initFails <;> simp [hf]
    · rw [initMany]
      by_cases hf : d0.initFails <;> simp [hf, ih hmem']

theorem onInitialized_mem_of_mem {l : List Driver} (rf hi : Bool)
    {d : Driver} (hmem : d ∈ l) (hok : d.initFails = false) :
    Event.onInitialized d.name ∈ initMany rf hi true true l := by
  induction l with
  | nil => cases hmem
  | cons d0 rest ih =>
    rcases List.mem_cons.mp hmem with heq | hmem'
    · subst heq
      rw [initMany, if_neg (by simp [hok])]
      simp [okEvents]
    · rw [initMany]
      by_cases hf : d0.initFails <;> simp [hf, ih hmem']

theorem initMany_append_ok {l1 : List Driver} (l2 : List Driver)
    (rf hi hd he : Bool) (h : ∀ d ∈ l1, d.initFails = false) :
    initMany rf hi hd he (l1 ++ l2) =
      initMany rf hi hd he l1 ++ initMany rf hi hd he l2 := by
  induction l1 with
  | nil => rfl
  | cons d rest ih =>
    have hd0 : d.initFails = false := h d (List.mem_cons_self _ _)
    rw [List.cons_append, initMany, initMany, if_neg (by simp [hd0]),
      if_neg (by simp [hd0]), ih fun x hx => h x (List.mem_cons_of_mem _ hx)]
    simp

theorem mem_preEvents {hi : Bool} {d : Driver} {e : Event}
    (h : e ∈ preEvents hi d) : e = Event.onInitializing d.name := by
  cases hi
  · cases h
  · simpa [preEvents] using h

theorem mem_okEvents {hd : Bool} {d : Driver} {e : Event}
    (h : e ∈ okEvents hd d) : e = Event.onInitialized d.name := by
  cases hd
  · cases h
  · simpa [okEvents] using h

theorem mem_regEvents {rf : Bool} {d : Driver} {e : Event}
    (h : e ∈ regEvents rf d) : e = Event.atexitRegister d.name := by
  cases rf
  · cases h
  · simpa [regEvents] using h

/-- Every event of a sequential trace belongs to one of the processed
drivers. -/
theorem mem_initMany_cases :
    ∀ {l : List Driver} {rf hi hd he : Bool} {e : Event},
      e ∈ initMany rf hi hd he l →
      ∃ d ∈ l, e = Event.onInitializing d.name ∨ e = Event.initCalled d.name ∨
        e = Event.onInitialized d.name ∨ e = Event.onException d.name d.errVal ∨
        e = Event.atexitRegister d.name ∨ e = Event.raised d.errVal := by
  intro l
  induction l with
  | nil => intro rf hi hd he e h; cases h
  | cons d rest ih =>
    intro rf hi hd he e h
    have hd0 : d ∈ d :: rest := List.mem_cons_self _ _
    have hlift : ∀ {e : Event}, e ∈ initMany rf hi hd he rest →
        ∃ x ∈ d :: rest, e = Event.onInitializing x.name ∨
          e = Event.initCalled x.name ∨ e = Event.onInitialized x.name ∨
          e = Event.onException x.name x.errVal ∨
          e = Event.atexitRegister x.name ∨ e = Event.raised x.errVal := by
      intro e he'
      rcases ih he' with ⟨x, hx, hcase⟩
      exact ⟨x, List.mem_cons_of_mem _ hx, hcase⟩
    rw [initMany] at h
    by_cases hf : d.initFails
    · by_cases hhe : he
      · rw [if_pos hf, if_pos hhe] at h
        rcases List.mem_append.mp h with h1 | hrec
        · rcases List.mem_append.mp h1 with h2 | hreg
          · rcases List.mem_append.mp h2 with hpre | hmid
            · exact ⟨d, hd0, Or.inl (mem_preEvents hpre)⟩
            · rcases List.mem_cons.mp hmid with hc | hmid2
              · exact ⟨d, hd0, Or.inr (Or.inl hc)⟩
              · rcases List.mem_cons.mp hmid2 with hc | hnil
                · exact ⟨d, hd0, Or.inr (Or.inr (Or.inr (Or.inl hc)))⟩
                · cases hnil
          · exact ⟨d, hd0,
              Or.inr (Or.inr (Or.inr (Or.inr (Or.inl (mem_regEvents hreg)))))⟩
        · exact hlift hrec
      · rw [if_pos hf, if_neg hhe] at h
        rcases List.mem_append.mp h with hpre | hmid
        · exact ⟨d, hd0, Or.inl (mem_preEvents hpre)⟩
        · rcases List.mem_cons.mp hmid with hc | hmid2
          · exact ⟨d, hd0, Or.inr (Or.inl hc)⟩
          · rcases List.mem_cons.mp hmid2 with hc | hnil
            · exact ⟨d, hd0, Or.inr (Or.inr (Or.inr (Or.inr (Or.inr hc))))⟩
            · cases hnil
    · rw [if_neg hf] at h
      rcases List.mem_append.mp h with h1 | hrec
      · rcases List.mem_append.mp h1 with h2 | hreg
        · rcases List.mem_append.mp h2 with h3 | hok
          · rcases List.mem_append.mp h3 with hpre | hmid
            · exact ⟨d, hd0, Or.inl (mem_preEvents hpre)⟩
            · rcases List.mem_cons.mp hmid with hc | hnil
              · exact ⟨d, hd0, Or.inr (Or.inl hc)⟩
              · cases hnil
          · exact ⟨d, hd0, Or.inr (Or.inr (Or.inl (mem_okEvents hok)))⟩
        · exact ⟨d, hd0,
            Or.inr (Or.inr (Or.inr (Or.inr (Or.inl (mem_regEvents hreg)))))⟩
      · exact hlift hrec

theorem initCalled_name_mem {l : List Driver} {rf hi hd he : Bool} {n : ℕ}
    (h : Event.initCalled n ∈ initMany rf hi hd he l) :
    n ∈ l.map Driver.name := by
  rcases mem_initMany_cases h with ⟨d, hdl, hcase⟩
  rcases hcase with hc | hc | hc | hc | hc | hc
  all_goals cases hc
  exact List.mem_map.mpr ⟨d, hdl, rfl⟩

theorem atexit_name_mem {l : List Driver} {rf hi hd he : Bool} {n : ℕ}
    (h : Event.atexitRegister n ∈ initMany rf hi hd he l) :
    n ∈ l.map Driver.name := by
  rcases mem_initMany_cases h with ⟨d, hdl, hcase⟩
  rcases hcase with hc | hc | hc | hc | hc | hc
  all_goals cases hc
  exact List.mem_map.mpr ⟨d, hdl, rfl⟩

theorem atexit_mem_of_mem_hook {l : List Driver} (hi hd : Bool)
    {d : Driver} (hmem : d ∈ l) :
    Event.atexitRegister d.name ∈ initMany true hi hd true l := by
  induction l with
  | nil => cases hmem
  | cons d0 rest ih =>
    rcases List.mem_cons.mp hmem with heq | hmem'
    · subst heq
      rw [initMany]
      by_cases hf : d.initFails <;> simp [hf, regEvents]
    · rw [initMany]
      by_cases hf : d0.initFails <;> simp [hf, ih hmem']

theorem atexit_mem_of_mem_ok {l : List Driver} (hi hd he : Bool)
    (hok : ∀ x ∈ l, x.initFails = false) {d : Driver} (hmem : d ∈ l) :
    Event.atexitRegister d.name ∈ initMany true hi hd he l := by
  induction l with
  | nil => cases hmem
  | cons d0 rest ih =>
    have h0 : d0.initFails = false := hok d0 (List.mem_cons_self _ _)
    rw [initMany, if_neg (by simp [h0])]
    rcases List.mem_cons.mp hmem with heq | hmem'
    · subst heq
      simp [regEvents]
    · simp [ih (fun x hx => hok x (List.mem_cons_of_mem _ hx)) hmem']

theorem nodup_split {pre post : List Driver} {bad : Driver}
    (hnd : ((pre ++ bad :: post).map Driver.name).Nodup) :
    (∀ d ∈ post, d.name ∉ pre.map Driver.name) ∧
    (∀ d ∈ post, d.name ≠ bad.name) ∧
    bad.name ∉ pre.map Driver.name := by
  rw [List.map_append, List.map_cons] at hnd
  rcases List.nodup_append.mp hnd with ⟨-, hnd2, hdisj⟩
  refine ⟨?_, ?_, ?_⟩
  · intro d hdp hmem
    exact hdisj hmem (List.mem_cons_of_mem _
      (List.mem_map.mpr ⟨d, hdp, rfl⟩))
  · intro d hdp heq
    rcases List.nodup_cons.mp hnd2 with ⟨hbad, -⟩
    exact hbad (heq ▸ List.mem_map.mpr ⟨d, hdp, rfl⟩)
  · intro hmem
    exact hdisj hmem (List.mem_cons_self _ _)

/-- C3: in a sequential one-level `initialize_many` call where exactly one
driver's initialize raises: with an `on_exception` hook the hook fires
exactly once, with that driver and its error, and every other driver is
still initialized (and reaches ready); without a hook the error is
re-raised immediately and no later driver has its initialize invoked. -/
theorem initMany_failure_containment :
    ∀ (pre post : List Driver) (bad : Driver) (rf hi hd : Bool),
      (∀ d ∈ pre, d.initFails = false) → (∀ d ∈ post, d.initFails = false) →
      bad.initFails = true →
      (((initMany rf hi hd true (pre ++ bad :: post)).filter isExc =
          [Event.onException bad.name bad.errVal]) ∧
        (∀ d ∈ pre ++ post, Event.initCalled d.name ∈
          initMany rf hi hd true (pre ++ bad :: post)) ∧
        (hd = true → ∀ d ∈ pre ++ post, Event.onInitialized d.name ∈
          initMany rf hi hd true (pre ++ bad :: post))) ∧
      (((pre ++ bad :: post).map Driver.name).Nodup →
        (initMany rf hi hd false (pre ++ bad :: post) =
          initMany rf hi hd false pre ++ (preEvents hi bad ++
            [Event.initCalled bad.name, Event.raised bad.errVal])) ∧
        ∀ d ∈ post, Event.initCalled d.name ∉
          initMany rf hi hd false (pre ++ bad :: post)) := by
  intro pre post bad rf hi hd hpre hpost hbad
  have hmem_lift : ∀ d ∈ pre ++ post, d ∈ pre ++ bad :: post := by
    intro d hd'
    rcases List.mem_append.mp hd' with h | h
    · exact List.mem_append.mpr (Or.inl h)
    · exact List.mem_append.mpr (Or.inr (List.mem_cons_of_mem _ h))
  refine ⟨⟨?_, ?_, ?_⟩, ?_⟩
  · rw [initMany_append_ok _ rf hi hd true hpre, List.filter_append,
      filter_isExc_initMany_ok rf hi hd true hpre, initMany,
      if_pos (by simp [hbad]), if_pos rfl]
    simp only [List.filter_append, filter_isExc_preEvents,
      filter_isExc_regEvents, filter_isExc_initMany_ok rf hi hd true hpost]
    rfl
  · intro d hd'
    exact initCalled_mem_of_mem rf hi hd (hmem_lift d hd')
  · intro hhd d hd'
    subst hhd
    rcases List.mem_append.mp hd' with h | h
    · exact onInitialized_mem_of_mem rf hi (hmem_lift d hd')
        (hpre d h)
    · exact onInitialized_mem_of_mem rf hi (hmem_lift d hd')
        (hpost d h)
  · intro hnd
    have hform : initMany rf hi hd false (pre ++ bad :: post) =
        initMany rf hi hd false pre ++ (preEvents hi bad ++
          [Event.initCalled bad.name, Event.raised bad.errVal]) := by
      rw [initMany_append_ok _ rf hi hd false hpre, initMany,
        if_pos (by simp [hbad]), if_neg (by simp)]
    refine ⟨hform, ?_⟩
    rcases nodup_split hnd with ⟨hdisj, hneq, -⟩
    intro d hdp hmem
    rw [hform] at hmem
    rcases List.mem_append.mp hmem with h | h
    · exact hdisj d hdp (initCalled_name_mem h)
    · rcases List.mem_append.mp h with h | h
      · cases mem_preEvents h
      · rcases List.mem_cons.mp h with h | h
        · injection h with hnm
          exact hneq d hdp hnm
        · rcases List.mem_cons.mp h with h | h
          · cases h
          · cases h

/-- The three concrete drivers used by the witnesses: driver 2 raises. -/
def drvA : Driver := ⟨1, false, 0⟩

def drvB : Driver := ⟨2, true, 77⟩

def drvC : Driver := ⟨3, false, 0⟩

/-- Witness for C3: drivers 1, 2, 3 in one level, driver 2 raising. -/
theorem initMany_failure_containment_witness :
    ((∀ d ∈ [drvA], d.initFails = false) ∧
      (∀ d ∈ [drvC], d.initFails = false) ∧ drvB.initFails = true) ∧
    (((initMany true true true true ([drvA] ++ drvB :: [drvC])).filter isExc =
        [Event.onException drvB.name drvB.errVal] ∧
      (∀ d ∈ [drvA] ++ [drvC], Event.initCalled d.name ∈
        initMany true true true true ([drvA] ++ drvB :: [drvC])) ∧
      (true = true → ∀ d ∈ [drvA] ++ [drvC], Event.onInitialized d.name ∈
        initMany true true true true ([drvA] ++ drvB :: [drvC]))) ∧
    ((([drvA] ++ drvB :: [drvC]).map Driver.name).Nodup →
      (initMany true true true false ([drvA] ++ drvB :: [drvC]) =
        initMany true true true false [drvA] ++ (preEvents true drvB ++
          [Event.initCalled drvB.name, Event.raised drvB.errVal])) ∧
      ∀ d ∈ [drvC], Event.initCalled d.name ∉
        initMany true true true false ([drvA] ++ drvB :: [drvC]))) :=
  ⟨⟨by decide, by decide, by decide⟩,
    initMany_failure_containment [drvA] [drvC] drvB true true true
      (by decide) (by decide) (by decide)⟩

/-- C6 counterexample: with `register_finalizer` set and an `on_exception`
hook supplied, a driver whose initialize raises still gets its finalizer
registered, because the `if register_finalizer:` line sits outside the
try/except. -/
theorem register_finalizer_on_failure :
    (⟨0, true, 99⟩ : Driver).initFails = true ∧
    Event.atexitRegister 0 ∈ initMany true false false true [⟨0, true, 99⟩] := by
  decide

/-- C6 (amended): with `register_finalizer` set, in sequential mode a
finalizer is scheduled for every driver whose loop iteration completes:
with an `on_exception` hook that is every driver (succeeded or not);
without a hook it is exactly the drivers before the first failure. -/
theorem initMany_finalizer_registration :
    ∀ (hi hd : Bool),
      (∀ (l : List Driver), ∀ d ∈ l,
        Event.atexitRegister d.name ∈ initMany true hi hd true l) ∧
      (∀ (pre post : List Driver) (bad : Driver),
        (∀ d ∈ pre, d.initFails = false) → bad.initFails = true →
        ((pre ++ bad :: post).map Driver.name).Nodup →
        (∀ d ∈ pre, Event.atexitRegister d.name ∈
          initMany true hi hd false (pre ++ bad :: post)) ∧
        Event.atexitRegister bad.name ∉
          initMany true hi hd false (pre ++ bad :: post) ∧
        ∀ d ∈ post, Event.atexitRegister d.name ∉
          initMany true hi hd false (pre ++ bad :: post)) := by
  intro hi hd
  constructor
  · intro l d hmem
    exact atexit_mem_of_mem_hook hi hd hmem
  · intro pre post bad hpre hbad hnd
    have hform : initMany true hi hd false (pre ++ bad :: post) =
        initMany true hi hd false pre ++ (preEvents hi bad ++
          [Event.initCalled bad.name, Event.raised bad.errVal]) := by
      rw [initMany_append_ok _ true hi hd false hpre, initMany,
        if_pos (by simp [hbad]), if_neg (by simp)]
    rcases nodup_split hnd with ⟨hdisj, hneq, hbadpre⟩
    have hnotail : ∀ n : ℕ, Event.atexitRegister n ∉
        (preEvents hi bad ++ [Event.initCalled bad.name, Event.raised bad.errVal]) := by
      intro n hmem
      rcases List.mem_append.mp hmem with h | h
      · cases mem_preEvents h
      · rcases List.mem_cons.mp h with h | h
        · cases h
        · rcases List.mem_cons.mp h with h | h
          · cases h
          · cases h
    refine ⟨?_, ?_, ?_⟩
    · intro d hdp
      rw [hform]
      exact List.mem_append.mpr (Or.inl
        (atexit_mem_of_mem_ok hi hd false hpre hdp))
    · intro hmem
      rw [hform] at hmem
      rcases List.mem_append.mp hmem with h | h
      · exact hbadpre (atexit_name_mem h)
      · exact hnotail bad.name h
    · intro d hdp hmem
      rw [hform] at hmem
      rcases List.mem_append.mp hmem with h | h
      · exact hdisj d hdp (atexit_name_mem h)
      · exact hnotail d.name h

/-- Witness for the amended C6: driver 2 raising, no hook. -/
theorem initMany_finalizer_registration_witness :
    ((∀ d ∈ [drvA], d.initFails = false) ∧ drvB.initFails = true ∧
      (([drvA] ++ drvB :: [drvC]).map Driver.name).Nodup) ∧
    ((∀ d ∈ [drvA], Event.atexitRegister d.name ∈
        initMany true false false false ([drvA] ++ drvB :: [drvC])) ∧
      Event.atexitRegister drvB.name ∉
        initMany true false false false ([drvA] ++ drvB :: [drvC]) ∧
      ∀ d ∈ [drvC], Event.atexitRegister d.name ∉
        initMany true false false false ([drvA] ++ drvB :: [drvC])) :=
  ⟨⟨by decide, by decide, by decide⟩,
    (initMany_finalizer_registration false false).2 [drvA] [drvC] drvB
      (by decide) (by decide) (by decide)⟩

/-! ## Flock.add (src/lantz/core/flock.py, lines 38-68)

State: `_drivers` is an insertion-ordered dict (here: the list of driver
names) and `_dependencies` is a defaultdict of name sets (here: the finite
set of (name, dependency) pairs; `add` never creates empty entries).
`name.isidentifier()` and `dir(Flock)` are external predicates and are
passed in as parameters.  All four rejections in the source raise
`ValueError`, each before any mutation; the returned pair is the state
after the call plus the error raised, if any. -/

structure FlockState where
  drivers : List String
  deps : Finset (String × String)
  deriving DecidableEq

def Flock.add (isident : String → Bool) (flockDir : List String)
    (st : FlockState) (driverName : String) (dependencies : List String) :
    FlockState × Option PyErr :=
  match dependencies.find? (fun dep => !(st.drivers.contains dep)) with
  | some _ => (st, some .valueError)
  | none =>
    if !(isident driverName) then (st, some .valueError)
    else if flockDir.contains driverName then (st, some .valueError)
    else if st.drivers.contains driverName then (st, some .valueError)
    else ({ drivers := st.drivers ++ [driverName],
            deps := st.deps ∪
              (dependencies.map (fun dep => (driverName, dep))).toFinset },
          none)

/-- C9: a rejected `Flock.add` call — a dependency not yet a member, an
invalid identifier, a collision with a `Flock` class attribute, or a taken
name — raises `ValueError` and leaves the driver membership and the
dependency map unchanged; the driver and its dependencies are recorded
exactly when every validation passes. -/
theorem Flock.add_validation :
    ∀ (isident : String → Bool) (fdir : List String) (st : FlockState)
      (name : String) (depList : List String),
      (((∃ dep ∈ depList, dep ∉ st.drivers) ∨ isident name = false ∨
          name ∈ fdir ∨ name ∈ st.drivers) →
        Flock.add isident fdir st name depList = (st, some PyErr.valueError)) ∧
      ((∀ dep ∈ depList, dep ∈ st.drivers) → isident name = true →
        name ∉ fdir → name ∉ st.drivers →
        Flock.add isident fdir st name depList =
          ({ drivers := st.drivers ++ [name],
             deps := st.deps ∪
               (depList.map (fun dep => (name, dep))).toFinset }, none)) := by
  intro isident fdir st name depList
  constructor
  · intro hrej
    unfold Flock.add
    cases hfind : depList.find? (fun dep => !(st.drivers.contains dep)) with
    | some dep => rfl
    | none =>
      have hdeps : ∀ dep ∈ depList, dep ∈ st.drivers := by
        intro dep hdep
        have h1 := List.find?_eq_none.mp hfind dep hdep
        simp only [Bool.not_eq_true', Bool.not_eq_false] at h1
        simpa using h1
      rcases hrej with ⟨dep, hdep, hmem⟩ | hident | hdir | htaken
      · exact absurd (hdeps dep hdep) hmem
      · rw [if_pos (by simp [hident])]
      · by_cases hid : isident name
        · rw [if_neg (by simp [hid]), if_pos (by simpa using hdir)]
        · rw [if_pos (by simp [hid])]
      · by_cases hid : isident name
        · by_cases hfd : fdir.contains name
          · rw [if_neg (by simp [hid]), if_pos hfd]
          · rw [if_neg (by simp [hid]), if_neg hfd,
              if_pos (by simpa using htaken)]
        · rw [if_pos (by simp [hid])]
  · intro hdeps hident hdir htaken
    unfold Flock.add
    have hfind : depList.find? (fun dep => !(st.drivers.contains dep)) = none := by
      apply List.find?_eq_none.mpr
      intro dep hdep
      simpa using hdeps dep hdep
    rw [hfind]
    rw [if_neg (by simp [hident]), if_neg (by simpa using hdir),
      if_neg (by simpa using htaken)]

/-- Witness for C9: adding driver "b" depending on the member "a". -/
theorem Flock.add_validation_witness :
    ((∀ dep ∈ ["a"], dep ∈ (FlockState.mk ["a"] ∅).drivers) ∧
      (fun s => !s.isEmpty) "b" = true ∧ "b" ∉ ["add"] ∧
      "b" ∉ (FlockState.mk ["a"] ∅).drivers) ∧
    Flock.add (fun s => !s.isEmpty) ["add"] (FlockState.mk ["a"] ∅) "b" ["a"] =
      ({ drivers := ["a"] ++ ["b"],
         deps := (∅ : Finset (String × String)) ∪
           (["a"].map (fun dep => ("b", dep))).toFinset }, none) :=
  ⟨⟨by decide, by decide, by decide, by decide⟩,
    (Flock.add_validation (fun s => !s.isEmpty) ["add"]
      (FlockState.mk ["a"] ∅) "b" ["a"]).2
      (by decide) (by decide) (by decide) (by decide)⟩

/-! ## Pipeline construction: Feat.rebuild and Action.build_converter
(src/lantz/core/feat.py, lines 137-185; src/lantz/core/action.py,
lines 130-176)

A pipeline is the list of steps appended by the builder, in order; a step
is represented symbolically and given run semantics below.  Values are
bare numbers or quantities (magnitude plus unit string); unit conversion
(pint's `Quantity.to`) is modelled over a fixed unit-factor table.
`values` specs are dicts or sets (enum specs are not modelled); `limits`
specs are a single range or a tuple of ranges, mirroring the
`isinstance(limits[0], (list, tuple))` dispatch; Action `funcs` is a
single callable or a list of callables, Feat `get_funcs`/`set_funcs` is a
list whose `None` entries are skipped. -/

inductive PyVal where
  | num (q : ℚ)
  | qty (mag : ℚ) (u : String)
  deriving DecidableEq

inductive ValuesSpec where
  | dict (l : List (PyVal × PyVal))
  | set (l : List PyVal)
  deriving DecidableEq

structure MyRange where
  start : ℚ
  stop : ℚ
  step : Option ℚ
  deriving DecidableEq

inductive LimitsSpec where
  | single (r : MyRange)
  | multiple (rs : List MyRange)
  deriving DecidableEq

inductive FuncsSpec where
  | one (i : ℕ)
  | many (l : List ℕ)
  deriving DecidableEq

inductive Step where
  | mapperStep (l : List (PyVal × PyVal))
  | membershipStep (l : List PyVal)
  | reverseMapperStep (l : List (PyVal × PyVal))
  | toMagnitudeStep (u : String)
  | toQuantityStep (u : String)
  | rangeStep (r : MyRange)
  | rangeTupleStep (rs : List MyRange)
  | customStep (i : ℕ)
  deriving DecidableEq

/-- `processors.mapper_or_checker` as a pipeline step: dict → mapper,
set → membership checker. -/
def mapper_or_checker_step : ValuesSpec → Step
  | .dict l => .mapperStep l
  | .set l => .membershipStep l

/-- `processors.reverse_mapper_or_checker` as a pipeline step. -/
def reverse_mapper_or_checker_step : ValuesSpec → Step
  | .dict l => .reverseMapperStep l
  | .set l => .membershipStep l

/-- The steps appended for an Action `funcs` modifier:
`if isinstance(funcs, (list, tuple)): append each; else: append funcs`. -/
def action_funcs_steps : FuncsSpec → List Step
  | .one i => [.customStep i]
  | .many l => l.map Step.customStep

/-- The steps appended for a Feat `get_funcs`/`set_funcs` modifier:
`for func in funcs: if func is not None: append(Processor(func))`. -/
def feat_funcs_steps (fs : List (Option ℕ)) : List Step :=
  fs.filterMap (fun f => f.map Step.customStep)

/-- The step appended for a `limits` modifier (both Feat and Action):
a tuple of ranges if `limits[0]` is a list/tuple, else one range. -/
def limits_step : LimitsSpec → Step
  | .single r => .rangeStep r
  | .multiple rs => .rangeTupleStep rs

/-- `Feat.rebuild`, set direction (feat.py lines 159-185): append
unit→magnitude, then value mapper, then range checker, then the custom
set functions in declaration order; not reversed. -/
def Feat.rebuild_set (values : Option ValuesSpec) (units : Option String)
    (limits : Option LimitsSpec) (set_funcs : Option (List (Option ℕ))) :
    List Step :=
  (match units with | none => [] | some u => [Step.toMagnitudeStep u]) ++
  (match values with | none => [] | some v => [mapper_or_checker_step v]) ++
  (match limits with | none => [] | some l => [limits_step l]) ++
  (match set_funcs with | none => [] | some fs => feat_funcs_steps fs)

/-- `Feat.rebuild`, get direction: append unit→quantity, then reverse
value mapper, then the custom get functions in declaration order — and
then reverse the whole pipeline (`reversed(get_processors)`).  `limits`
is never appended to the get pipeline. -/
def Feat.rebuild_get (values : Option ValuesSpec) (units : Option String)
    (get_funcs : Option (List (Option ℕ))) : List Step :=
  ((match units with | none => [] | some u => [Step.toQuantityStep u]) ++
   (match values with | none => [] | some v => [reverse_mapper_or_checker_step v]) ++
   (match get_funcs with | none => [] | some fs => feat_funcs_steps fs)).reverse

/-- `Action.build_converter` (action.py lines 130-156): append value
mapper FIRST, then unit→magnitude, then range checker, then the custom
functions in declaration order; not reversed. -/
def Action.build_converter (values : Option ValuesSpec) (units : Option String)
    (limits : Option LimitsSpec) (funcs : Option FuncsSpec) : List Step :=
  (match values with | none => [] | some v => [mapper_or_checker_step v]) ++
  (match units with | none => [] | some u => [Step.toMagnitudeStep u]) ++
  (match limits with | none => [] | some l => [limits_step l]) ++
  (match funcs with | none => [] | some fs => action_funcs_steps fs)

/-- `Action.ret` (action.py lines 168-176) registers
`cls.build_converter(values=..., units=..., limits=..., funcs=...)` for
the reserved parameter name: the return pipeline IS the set-style
parameter pipeline. -/
def Action.ret_converter (values : Option ValuesSpec) (units : Option String)
    (limits : Option LimitsSpec) (funcs : Option FuncsSpec) : List Step :=
  Action.build_converter values units limits funcs

/-- The fixed unit-factor table used by the semantics (seconds and
milliseconds). -/
def ufactor : String → Option ℚ
  | "s" => some 1
  | "ms" => some (1 / 1000)
  | _ => none

/-- pint `Quantity.to`: identical units convert trivially; otherwise
convert through the factor table; unknown units are incompatible. -/
def convertMag (m : ℚ) (fromU toU : String) : Option ℚ :=
  if fromU = toU then some m
  else
    match ufactor fromU, ufactor toU with
    | some a, some b => some (m * a / b)
    | _, _ => none

/-- Run one pipeline step on a scalar value.  `env` interprets the custom
functions.  `to_magnitude_converter` passes a dimensionless number through
(warn policy); `to_quantity_converter` attaches the target unit to a
dimensionless number (ignore policy); the range checker compares bare
numbers and a tuple-of-ranges converter applied to a scalar is a type
error (it zips against the value). -/
def runStep (env : ℕ → PyVal → Except PyErr PyVal) :
    Step → PyVal → Except PyErr PyVal
  | .mapperStep l, v => mapper l v
  | .membershipStep l, v => if v ∈ l then .ok v else .error .valueError
  | .reverseMapperStep l, v => reverse_mapper_or_checker l v
  | .toMagnitudeStep t, .qty m u =>
    (match convertMag m u t with
     | some m2 => .ok (.num m2)
     | none => .error .valueError)
  | .toMagnitudeStep _, .num n => .ok (.num n)
  | .toQuantityStep t, .qty m u =>
    (match convertMag m u t with
     | some m2 => .ok (.qty m2 t)
     | none => .error .valueError)
  | .toQuantityStep t, .num n => .ok (.qty n t)
  | .rangeStep r, .num n => (range_checker_coercer r.start r.stop r.step n).map .num
  | .rangeStep _, .qty _ _ => .error .typeError
  | .rangeTupleStep _, _ => .error .typeError
  | .customStep i, v => env i v

/-- `Processor.__call__` on a scalar: thread the value through the steps
in order; a raised error propagates. -/
def runPipeline (env : ℕ → PyVal → Except PyErr PyVal) :
    List Step → PyVal → Except PyErr PyVal
  | [], v => .ok v
  | s :: rest, v =>
    match runStep env s v with
    | .error e => .error e
    | .ok v2 => runPipeline env rest v2

theorem runPipeline_append (env : ℕ → PyVal → Except PyErr PyVal) :
    ∀ (s1 s2 : List Step) (v : PyVal),
      runPipeline env (s1 ++ s2) v =
        match runPipeline env s1 v with
        | .error e => .error e
        | .ok v2 => runPipeline env s2 v2 := by
  intro s1
  induction s1 with
  | nil => intro s2 v; rfl
  | cons s rest ih =>
    intro s2 v
    rw [List.cons_append]
    show (match runStep env s v with
      | .error e => (.error e : Except PyErr PyVal)
      | .ok v2 => runPipeline env (rest ++ s2) v2) =
      match (match runStep env s v with
        | .error e => (.error e : Except PyErr PyVal)
        | .ok v2 => runPipeline env rest v2) with
      | .error e => (.error e : Except PyErr PyVal)
      | .ok v2 => runPipeline env s2 v2
    cases runStep env s v with
    | error e => rfl
    | ok v2 => exact ih s2 v2

/-- Modelled from the amended claim C4: the Action parameter pipeline
applies, in this fixed order, the value mapper, then the unit→magnitude
converter, then the range/grid checker, then each custom func in
declaration order, with no reversal. -/
def amended_param_order (values : Option ValuesSpec) (units : Option String)
    (limits : Option LimitsSpec) (funcs : Option FuncsSpec) : List Step :=
  (values.map mapper_or_checker_step).toList ++
  (units.map Step.toMagnitudeStep).toList ++
  (limits.map limits_step).toList ++
  (funcs.map action_funcs_steps).getD []

/-- C4 counterexample: with both `values` and `units` set, the Action
parameter pipeline runs the value mapper BEFORE the unit→magnitude
converter — the reverse of the Feat set pipeline order the claim
asserts — and the two orders are observably different: the Feat order
accepts the quantity 5 s (magnitude first, then map 5 to 1) while the
Action order fails with ValueError (the quantity is not a dict key). -/
theorem action_param_order_counterexample :
    Action.build_converter (some (.dict [(.num 5, .num 1)])) (some "s") none none ≠
      Feat.rebuild_set (some (.dict [(.num 5, .num 1)])) (some "s") none none ∧
    Action.build_converter (some (.dict [(.num 5, .num 1)])) (some "s") none none =
      [Step.mapperStep [(.num 5, .num 1)], Step.toMagnitudeStep "s"] ∧
    Feat.rebuild_set (some (.dict [(.num 5, .num 1)])) (some "s") none none =
      [Step.toMagnitudeStep "s", Step.mapperStep [(.num 5, .num 1)]] ∧
    runPipeline (fun _ v => .ok v)
      (Feat.rebuild_set (some (.dict [(.num 5, .num 1)])) (some "s") none none)
      (.qty 5 "s") = .ok (.num 1) ∧
    runPipeline (fun _ v => .ok v)
      (Action.build_converter (some (.dict [(.num 5, .num 1)])) (some "s") none none)
      (.qty 5 "s") = .error .valueError := by
  decide

/-- C4 (amended): the Action parameter pipeline appends, in this fixed
order: value mapper (if `values`), unit→magnitude converter (if `units`),
range/grid checker (if `limits`), then each custom func in declaration
order, with no reversal — i.e. the Feat set pipeline steps with the
values/units order swapped; running a pipeline applies its steps left to
right; and whenever both `values` and `units` are set the Action pipeline
differs from the Feat set pipeline. -/
theorem action_param_pipeline_order :
    (∀ (values : Option ValuesSpec) (units : Option String)
        (limits : Option LimitsSpec) (funcs : Option FuncsSpec),
      Action.build_converter values units limits funcs =
        amended_param_order values units limits funcs) ∧
    (∀ (env : ℕ → PyVal → Except PyErr PyVal) (s1 s2 : List Step) (v : PyVal),
      runPipeline env (s1 ++ s2) v =
        match runPipeline env s1 v with
        | .error e => .error e
        | .ok v2 => runPipeline env s2 v2) ∧
    (∀ (vs : ValuesSpec) (u : String) (l1 l2 : Option LimitsSpec)
        (f1 : Option FuncsSpec) (f2 : Option (List (Option ℕ))),
      Action.build_converter (some vs) (some u) l1 f1 ≠
        Feat.rebuild_set (some vs) (some u) l2 f2) := by
  refine ⟨?_, runPipeline_append, ?_⟩
  · intro values units limits funcs
    cases values <;> cases units <;> cases limits <;> cases funcs <;> rfl
  · intro vs u l1 l2 f1 f2 h
    cases vs <;>
      simp [Action.build_converter, Feat.rebuild_set, mapper_or_checker_step] at h

/-- C5: `Action.ret` registers the SET-style `build_converter` pipeline
for the return slot — unreversed, with the forward value mapper and the
unit→magnitude converter — so for `units='s'` the raw return 3 comes back
as the bare number 3, while the Feat get pipeline (which the claim, and
the Action docstring's "the output will be a Quantity in seconds",
prescribe) yields the quantity 3 s. -/
theorem action_ret_set_style :
    (∀ (values : Option ValuesSpec) (units : Option String)
        (limits : Option LimitsSpec) (funcs : Option FuncsSpec),
      Action.ret_converter values units limits funcs =
        Action.build_converter values units limits funcs) ∧
    Action.ret_converter none (some "s") none none = [Step.toMagnitudeStep "s"] ∧
    runPipeline (fun _ v => .ok v)
      (Action.ret_converter none (some "s") none none) (.num 3) = .ok (.num 3) ∧
    Feat.rebuild_get none (some "s") none = [Step.toQuantityStep "s"] ∧
    runPipeline (fun _ v => .ok v)
      (Feat.rebuild_get none (some "s") none) (.num 3) = .ok (.qty 3 "s") ∧
    Action.ret_converter (some (.dict [(.num 0, .num 7)])) (some "s") none none ≠
      Feat.rebuild_get (some (.dict [(.num 0, .num 7)])) (some "s") none := by
  refine ⟨fun _ _ _ _ => rfl, by decide, by decide, by decide, by decide, by decide⟩

end Lantz
